import Mathlib

/-!
Shallow embedding of `src/project/src/embeddings/chunking.py`.

Strings are modelled as `List Char` (Python `len` counts characters, as does
`List.length` here).  Python whitespace stripping (`str.strip`, `str.rstrip`)
is modelled over the ASCII whitespace characters, and `str.splitlines` over
the ASCII line-break characters; the exotic Unicode whitespace code points do
not occur in the texts the claims are about.
-/

set_option maxHeartbeats 1000000

abbrev Str := List Char

/-- Characters stripped by Python `str.strip()` (ASCII part). -/
def isPyWS (c : Char) : Bool :=
  c = ' ' || c = '\t' || c = '\n' || c = '\x0d' || c = '\x0b' || c = '\x0c'

/-- Line-break characters recognised by Python `str.splitlines` (ASCII part);
`'\x0d'` (carriage return) is handled separately so that a CR-LF pair counts
as a single break. -/
def isLineBreakChar (c : Char) : Bool :=
  c = '\n' || c = '\x0d' || c = '\x0b' || c = '\x0c' ||
  c = '\x1c' || c = '\x1d' || c = '\x1e'

/-- Python `str.strip()`: drop leading and trailing whitespace. -/
def stripChars (l : Str) : Str :=
  ((l.dropWhile isPyWS).reverse.dropWhile isPyWS).reverse

/-- Python `str.rstrip()`: drop trailing whitespace. -/
def stripRight (l : Str) : Str :=
  (l.reverse.dropWhile isPyWS).reverse

/-- `text.replace("\t", " ")` in `normalize_whitespace`. -/
def replaceTabs (l : Str) : Str :=
  l.map (fun c => if c = '\t' then ' ' else c)

/-- `re.sub(r"[ ]{2,}", " ", text)`: collapse every run of two or more
spaces to a single space (a run of `k ≥ 2` spaces loses its first `k - 1`
spaces; runs of length 1 are untouched, which coincides with the regex
substitution). -/
def collapseSpaces : Str → Str
  | [] => []
  | [c] => [c]
  | c1 :: c2 :: rest =>
    if c1 = ' ' ∧ c2 = ' ' then collapseSpaces (c2 :: rest)
    else c1 :: collapseSpaces (c2 :: rest)

/-- `re.sub(r"\n{3,}", "\n\n", text)`: collapse every run of three or more
newlines to exactly two (a run of `k ≥ 3` newlines loses its first `k - 2`
newlines; runs of length ≤ 2 are untouched, which coincides with the regex
substitution). -/
def collapseNewlines : Str → Str
  | [] => []
  | [c] => [c]
  | [c1, c2] => [c1, c2]
  | c1 :: c2 :: c3 :: rest =>
    if c1 = '\n' ∧ c2 = '\n' ∧ c3 = '\n' then collapseNewlines (c2 :: c3 :: rest)
    else c1 :: collapseNewlines (c2 :: c3 :: rest)

/-- `normalize_whitespace` from `chunking.py`. -/
def normalize_whitespace (text : Str) : Str :=
  stripChars (collapseNewlines (collapseSpaces (replaceTabs text)))

/-- Helper for `splitlines`: accumulate the current line (reversed) while
scanning. No trailing empty line is produced, matching Python. -/
def splitlinesAux : Str → Str → List Str
  | [], acc => if acc.isEmpty then [] else [acc.reverse]
  | '\x0d' :: '\n' :: rest, acc => acc.reverse :: splitlinesAux rest []
  | c :: rest, acc =>
    if isLineBreakChar c then acc.reverse :: splitlinesAux rest []
    else splitlinesAux rest (c :: acc)

/-- Python `str.splitlines()`. -/
def splitlines (l : Str) : List Str := splitlinesAux l []

/-- Case folding covering the letters of `_HEADING_REGEX` under
`re.IGNORECASE`: ASCII upper-case letters and the two accented capitals
appearing in the pattern. -/
def foldCase (c : Char) : Char :=
  if 'A' ≤ c ∧ c ≤ 'Z' then Char.ofNat (c.toNat + 32)
  else if c = 'Á' then 'á'
  else if c = 'Í' then 'í'
  else c

/-- Python `\w` (word character) for the texts at hand: ASCII alphanumerics,
underscore, and the Spanish accented letters. Used for the `\b` boundary
after the heading keyword. -/
def isWordChar (c : Char) : Bool :=
  c.isAlphanum || c = '_' ||
  ['á', 'é', 'í', 'ó', 'ú', 'Á', 'É', 'Í', 'Ó', 'Ú', 'ñ', 'Ñ', 'ü', 'Ü'].contains c

/-- One alternative of `_HEADING_REGEX`: the (case-folded) line starts with
`kw` followed by a word boundary. -/
def matchKeyword (kw : Str) (l : Str) : Bool :=
  kw.isPrefixOf l &&
  (match l.drop kw.length with
   | [] => true
   | c :: _ => !isWordChar c)

/-- `_HEADING_REGEX.match(line)`:
`^\s*(CL[AÁ]USULA|ART[ÍI]CULO)\b` with `re.IGNORECASE`. -/
def headingMatch (line : Str) : Bool :=
  let rest := (line.dropWhile isPyWS).map foldCase
  matchKeyword ['c', 'l', 'a', 'u', 's', 'u', 'l', 'a'] rest ||
  matchKeyword ['c', 'l', 'á', 'u', 's', 'u', 'l', 'a'] rest ||
  matchKeyword ['a', 'r', 't', 'i', 'c', 'u', 'l', 'o'] rest ||
  matchKeyword ['a', 'r', 't', 'í', 'c', 'u', 'l', 'o'] rest

/-- Python `sep.join(xs)`. -/
def joinWith (s : Str) : List Str → Str
  | [] => []
  | [x] => x
  | x :: rest => x ++ s ++ joinWith s rest

/-- The fixed two-newline chunk separator `"\n\n"`. -/
def sepNL2 : Str := ['\n', '\n']

/-- `"\n\n".join(segments)`. -/
def joinSegs (l : List Str) : Str := joinWith sepNL2 l

/-- `flush_segment` in `split_into_segments`: append the joined, stripped
buffer when non-empty. -/
def flushSegment (segments : List Str) (current : List Str) : List Str :=
  if current ≠ [] then
    let segment := stripChars (joinWith ['\n'] current)
    if segment ≠ [] then segments ++ [segment] else segments
  else segments

/-- Loop body of `split_into_segments`: state is
`(segments, current_lines)`. -/
def segStep (st : List Str × List Str) (raw : Str) : List Str × List Str :=
  let line := stripRight raw
  if stripChars line = [] then (flushSegment st.1 st.2, [])
  else if headingMatch line ∧ st.2 ≠ [] then (flushSegment st.1 st.2, [line])
  else (st.1, st.2 ++ [line])

/-- `split_into_segments` from `chunking.py`. -/
def split_into_segments (page_text : Str) : List Str :=
  let t := normalize_whitespace page_text
  if t = [] then []
  else
    let st := (splitlines t).foldl segStep ([], [])
    flushSegment st.1 st.2

/-- `ChunkingConfig` dataclass. -/
structure ChunkingConfig where
  max_chars : Int := 1500
  min_chars : Int := 400
  overlap_segments : Int := 1
deriving DecidableEq

/-- Python `l[-k:]` for `k > 0`: the last `min(k, len(l))` elements. -/
def takeRightNeg (k : Int) (l : List Str) : List Str :=
  l.drop (l.length - k.toNat)

/-- `current_length_with(seg)`: length of the buffer joined with `"\n\n"`
after adding `seg`. -/
def currentLengthWith (cur : List Str) (seg : Str) : Nat :=
  (joinSegs (cur ++ [seg])).length

/-- Loop body of `build_chunks_from_segments`: state is
`(chunks, current_segments)`. -/
def packStep (cfg : ChunkingConfig) (st : List Str × List Str) (seg : Str) :
    List Str × List Str :=
  if st.2 ≠ [] ∧ (currentLengthWith st.2 seg : Int) > cfg.max_chars then
    let chunkText := stripChars (joinSegs st.2)
    let chunks' := if chunkText ≠ [] then st.1 ++ [chunkText] else st.1
    let overlap :=
      if cfg.overlap_segments > 0 then takeRightNeg cfg.overlap_segments st.2
      else []
    (chunks', overlap ++ [seg])
  else (st.1, st.2 ++ [seg])

/-- The final-chunk flush after the loop in `build_chunks_from_segments`. -/
def finalizeChunks (st : List Str × List Str) : List Str :=
  if st.2 ≠ [] then
    let chunkText := stripChars (joinSegs st.2)
    if chunkText ≠ [] then st.1 ++ [chunkText] else st.1
  else st.1

/-- The greedy packing pass of `build_chunks_from_segments`, before the
trailing-merge post-processing. -/
def pre_merge_chunks (segs : List Str) (cfg : ChunkingConfig) : List Str :=
  finalizeChunks (segs.foldl (packStep cfg) ([], []))

/-- The trailing-merge post-processing:
`if len(chunks) >= 2 and len(chunks[-1]) < config.min_chars: ...`. -/
def mergeSmallLast (cfg : ChunkingConfig) (chunks : List Str) : List Str :=
  if 2 ≤ chunks.length ∧ ((chunks.getLastD []).length : Int) < cfg.min_chars then
    chunks.dropLast.dropLast ++
      [chunks.getD (chunks.length - 2) [] ++ sepNL2 ++ chunks.getLastD []]
  else chunks

/-- `build_chunks_from_segments` from `chunking.py`. -/
def build_chunks_from_segments (segs : List Str) (cfg : ChunkingConfig) :
    List Str :=
  if segs = [] then [] else mergeSmallLast cfg (pre_merge_chunks segs cfg)

/-- `chunk_page_text` from `chunking.py`. -/
def chunk_page_text (page_text : Str) (cfg : ChunkingConfig) : List Str :=
  let segments := split_into_segments page_text
  if segments = [] then [] else build_chunks_from_segments segments cfg

/-!
Checked variant of the packer: every Python operation that can raise on an
out-of-range index — `chunks[-1]`, `chunks[-2]`, the `chunks[-2] = ...`
assignment and `chunks.pop()` in the trailing merge — is replaced by a
guarded `List.get?` access, and the whole computation returns `none` if any
of them would be out of bounds.  (Slicing, joins and strips are total in
Python.)  Proving the checked variant always returns `some` of the plain
result settles the no-exception claim.
-/

/-- Checked trailing merge, mirroring the short-circuit evaluation of
`len(chunks) >= 2 and len(chunks[-1]) < config.min_chars`. -/
def mergeSmallLastChecked (cfg : ChunkingConfig) (chunks : List Str) :
    Option (List Str) :=
  if 2 ≤ chunks.length then
    (chunks.get? (chunks.length - 1)).bind fun last =>
      if (last.length : Int) < cfg.min_chars then
        (chunks.get? (chunks.length - 2)).bind fun prev =>
          some (chunks.dropLast.dropLast ++ [prev ++ sepNL2 ++ last])
      else some chunks
  else some chunks

/-- Checked `build_chunks_from_segments`. -/
def build_chunks_from_segments_checked (segs : List Str) (cfg : ChunkingConfig) :
    Option (List Str) :=
  if segs = [] then some []
  else mergeSmallLastChecked cfg (pre_merge_chunks segs cfg)

/-- Checked `chunk_page_text`. -/
def chunk_page_text_checked (page_text : Str) (cfg : ChunkingConfig) :
    Option (List Str) :=
  let segments := split_into_segments page_text
  if segments = [] then some []
  else build_chunks_from_segments_checked segments cfg

/-!
Ghost (proof-level) version of the packer that keeps each chunk as its list
of constituent segments instead of the joined string.  It follows the exact
branch structure of `packStep`; the claims about overlap and segment order
are stated through it, and a correspondence theorem links it to the string
packer when the segments are non-empty and whitespace-stripped (which is
what the segmenter produces).
-/

/-- Seg-level loop body: state is `(chunks-as-segment-lists, buffer)`. -/
def packStepSegs (cfg : ChunkingConfig) (st : List (List Str) × List Str)
    (seg : Str) : List (List Str) × List Str :=
  if st.2 ≠ [] ∧ (currentLengthWith st.2 seg : Int) > cfg.max_chars then
    (st.1 ++ [st.2],
     (if cfg.overlap_segments > 0 then takeRightNeg cfg.overlap_segments st.2
      else []) ++ [seg])
  else (st.1, st.2 ++ [seg])

/-- Seg-level final flush. -/
def finalizeSegs (st : List (List Str) × List Str) : List (List Str) :=
  if st.2 ≠ [] then st.1 ++ [st.2] else st.1

/-- Seg-level greedy packing pass (pre-merge). -/
def preChunkSegsList (segs : List Str) (cfg : ChunkingConfig) :
    List (List Str) :=
  finalizeSegs (segs.foldl (packStepSegs cfg) ([], []))

/-- Seg-level trailing merge: concatenating the last two chunks' segment
lists corresponds to joining the two chunk strings with `"\n\n"`. -/
def mergeSegs (cfg : ChunkingConfig) (cs : List (List Str)) :
    List (List Str) :=
  if 2 ≤ cs.length ∧ ((joinSegs (cs.getLastD [])).length : Int) < cfg.min_chars then
    cs.dropLast.dropLast ++ [cs.getD (cs.length - 2) [] ++ cs.getLastD []]
  else cs

/-- Seg-level view of the whole packer. -/
def chunkSegsList (segs : List Str) (cfg : ChunkingConfig) :
    List (List Str) :=
  mergeSegs cfg (preChunkSegsList segs cfg)

/-- A segment as produced by the segmenter: non-empty and
whitespace-stripped. -/
def GoodSeg (s : Str) : Prop := s ≠ [] ∧ stripChars s = s

/-- `WinChainTo segs cs minA minE outA outE`: the chunks in `cs` are
non-empty contiguous slices of `segs` whose start indices are
non-decreasing (from `minA`) and whose one-past-the-end indices are
strictly increasing (at least `minE`); `(outA, outE)` are the constraints
handed to whatever would be appended after `cs`. -/
def WinChainTo (segs : List Str) :
    List (List Str) → Nat → Nat → Nat → Nat → Prop
  | [], minA, minE, outA, outE => outA = minA ∧ outE = minE
  | c :: cs, minA, minE, outA, outE =>
    ∃ a, minA ≤ a ∧ c ≠ [] ∧ c = (segs.drop a).take c.length ∧
      a + c.length ≤ segs.length ∧ minE ≤ a + c.length ∧
      WinChainTo segs cs a (a + c.length + 1) outA outE

/-!  Basic lemmas about `joinWith`, `joinSegs` and `stripChars`. -/

theorem joinWith_cons_cons (s x y : Str) (t : List Str) :
    joinWith s (x :: y :: t) = x ++ s ++ joinWith s (y :: t) := rfl

theorem joinSegs_nil : joinSegs [] = [] := rfl

theorem joinSegs_single (x : Str) : joinSegs [x] = x := rfl

theorem joinSegs_cons_cons (x y : Str) (t : List Str) :
    joinSegs (x :: y :: t) = x ++ sepNL2 ++ joinSegs (y :: t) := rfl

theorem joinSegs_cons_ex (x : Str) (t : List Str) :
    ∃ r, joinSegs (x :: t) = x ++ r := by
  cases t with
  | nil => exact ⟨[], by simp [joinSegs_single]⟩
  | cons y t => exact ⟨sepNL2 ++ joinSegs (y :: t), by simp [joinSegs_cons_cons]⟩

theorem joinSegs_append (a b : List Str) (ha : a ≠ []) (hb : b ≠ []) :
    joinSegs (a ++ b) = joinSegs a ++ sepNL2 ++ joinSegs b := by
  induction a with
  | nil => exact absurd rfl ha
  | cons x a ih =>
    cases a with
    | nil =>
      cases b with
      | nil => exact absurd rfl hb
      | cons y b => simp [joinSegs_single, joinSegs_cons_cons]
    | cons y a =>
      have hne : (y :: a) ++ b ≠ [] := by simp
      calc joinSegs (x :: y :: a ++ b)
          = x ++ sepNL2 ++ joinSegs (y :: a ++ b) := joinSegs_cons_cons _ _ _
        _ = x ++ sepNL2 ++ (joinSegs (y :: a) ++ sepNL2 ++ joinSegs b) := by
            rw [ih (by simp)]
        _ = joinSegs (x :: y :: a) ++ sepNL2 ++ joinSegs b := by
            rw [joinSegs_cons_cons]; simp [List.append_assoc]

theorem joinSegs_concat_ex (x : Str) (t : List Str) :
    ∃ r, joinSegs (t ++ [x]) = r ++ x := by
  cases t with
  | nil => exact ⟨[], by simp [joinSegs_single]⟩
  | cons y t =>
    refine ⟨joinSegs (y :: t) ++ sepNL2, ?_⟩
    rw [joinSegs_append (y :: t) [x] (by simp) (by simp), joinSegs_single]

theorem stripChars_nil : stripChars [] = [] := rfl

/-- The head of a stripped string is never whitespace. -/
theorem stripChars_head_not_ws (l : Str) (c : Char)
    (h : (stripChars l).head? = some c) : isPyWS c = false := by
  unfold stripChars at h
  set A := l.dropWhile isPyWS with hA
  have hsuf : (A.reverse.dropWhile isPyWS) <:+ A.reverse :=
    List.dropWhile_suffix _
  have hpre : (A.reverse.dropWhile isPyWS).reverse <+: A := by
    have := List.reverse_prefix.mpr hsuf
    rwa [List.reverse_reverse] at this
  obtain ⟨t, ht⟩ := hpre
  have hAhead : A.head? = some c := by
    cases hrev : (A.reverse.dropWhile isPyWS).reverse with
    | nil => rw [hrev] at h; simp at h
    | cons d r =>
      rw [hrev] at h ht
      simp at h
      rw [← ht, h]
      rfl
  have := List.head?_dropWhile_not isPyWS l
  rw [← hA, hAhead] at this
  exact this

/-- The last character of a stripped string is never whitespace. -/
theorem stripChars_getLast_not_ws (l : Str) (c : Char)
    (h : (stripChars l).getLast? = some c) : isPyWS c = false := by
  unfold stripChars at h
  rw [List.getLast?_eq_head?_reverse, List.reverse_reverse] at h
  have := List.head?_dropWhile_not isPyWS ((l.dropWhile isPyWS).reverse)
  rw [h] at this
  exact this

/-- A string whose ends are not whitespace is already stripped. -/
theorem stripChars_eq_self_of_ends (l : Str)
    (h1 : ∀ c, l.head? = some c → isPyWS c = false)
    (h2 : ∀ c, l.getLast? = some c → isPyWS c = false) :
    stripChars l = l := by
  cases l with
  | nil => rfl
  | cons a t =>
    have ha : isPyWS a = false := h1 a rfl
    unfold stripChars
    have hdrop : (a :: t).dropWhile isPyWS = a :: t := by
      rw [List.dropWhile_cons, ha]; simp
    rw [hdrop]
    cases hrev : (a :: t).reverse with
    | nil => simp at hrev
    | cons b r =>
      have hb : isPyWS b = false := by
        apply h2
        rw [List.getLast?_eq_head?_reverse, hrev]
        rfl
      rw [List.dropWhile_cons, hb]
      simp only [Bool.false_eq_true, if_false]
      rw [← hrev, List.reverse_reverse]

/-- `stripChars` is idempotent. -/
theorem stripChars_idem (l : Str) : stripChars (stripChars l) = stripChars l := by
  apply stripChars_eq_self_of_ends
  · exact stripChars_head_not_ws l
  · exact stripChars_getLast_not_ws l

/-- A good (non-empty, stripped) segment has a non-whitespace head. -/
theorem GoodSeg.head_not_ws {s : Str} (hs : GoodSeg s) (c : Char)
    (h : s.head? = some c) : isPyWS c = false := by
  apply stripChars_head_not_ws s
  rw [hs.2]; exact h

/-- A good segment has a non-whitespace last character. -/
theorem GoodSeg.getLast_not_ws {s : Str} (hs : GoodSeg s) (c : Char)
    (h : s.getLast? = some c) : isPyWS c = false := by
  apply stripChars_getLast_not_ws s
  rw [hs.2]; exact h

/-!  Joining good segments gives an already-stripped, non-empty string. -/

/-- A chunk built from good segments is non-empty. -/
theorem joinSegs_ne_nil_of_good (L : List Str) (hL : L ≠ [])
    (hG : ∀ s ∈ L, GoodSeg s) : joinSegs L ≠ [] := by
  cases L with
  | nil => exact absurd rfl hL
  | cons s t =>
    obtain ⟨r, hr⟩ := joinSegs_cons_ex s t
    rw [hr]
    have : s ≠ [] := (hG s (by simp)).1
    simp [this]

/-- The head of a chunk built from good segments is the head of its first
segment. -/
theorem joinSegs_head_of_good (s : Str) (t : List Str) (hs : s ≠ []) :
    (joinSegs (s :: t)).head? = s.head? := by
  obtain ⟨r, hr⟩ := joinSegs_cons_ex s t
  rw [hr, List.head?_append]
  cases s with
  | nil => exact absurd rfl hs
  | cons c cs => rfl

/-- The last character of a chunk built from good segments is the last
character of its last segment. -/
theorem joinSegs_getLast_of_good (s : Str) (t : List Str) (hs : s ≠ []) :
    (joinSegs (t ++ [s])).getLast? = s.getLast? := by
  obtain ⟨r, hr⟩ := joinSegs_concat_ex s t
  rw [hr, List.getLast?_append]
  cases hlast : s.getLast? with
  | none => simp [List.getLast?_eq_none_iff] at hlast; exact absurd hlast hs
  | some c => simp [hlast]

/-- A chunk built from a non-empty list of good segments is already
stripped (so the in-loop `.strip()` is the identity on it). -/
theorem stripChars_joinSegs_good (L : List Str) (hL : L ≠ [])
    (hG : ∀ s ∈ L, GoodSeg s) : stripChars (joinSegs L) = joinSegs L := by
  apply stripChars_eq_self_of_ends
  · intro c hc
    cases L with
    | nil => exact absurd rfl hL
    | cons s t =>
      have hs : GoodSeg s := hG s (by simp)
      rw [joinSegs_head_of_good s t hs.1] at hc
      exact hs.head_not_ws c hc
  · intro c hc
    have hdec := List.dropLast_concat_getLast hL
    have hlmem : L.getLast hL ∈ L := List.getLast_mem hL
    have hlast : GoodSeg (L.getLast hL) := hG _ hlmem
    rw [← hdec, joinSegs_getLast_of_good _ _ hlast.1] at hc
    exact hlast.getLast_not_ws c hc

/-!  Correspondence between the string packer and its seg-level ghost. -/

/-- Chunks at seg level are non-empty lists of good segments. -/
def GoodChunks (cs : List (List Str)) : Prop :=
  ∀ c ∈ cs, c ≠ [] ∧ ∀ s ∈ c, GoodSeg s

/-- Unfolding of `packStep` when the chunk closes. -/
theorem packStep_eq_pos (cfg : ChunkingConfig) (st : List Str × List Str)
    (seg : Str)
    (h : st.2 ≠ [] ∧ (currentLengthWith st.2 seg : Int) > cfg.max_chars) :
    packStep cfg st seg =
      ((if stripChars (joinSegs st.2) ≠ [] then
          st.1 ++ [stripChars (joinSegs st.2)] else st.1),
       (if cfg.overlap_segments > 0 then takeRightNeg cfg.overlap_segments st.2
        else []) ++ [seg]) := by
  unfold packStep
  rw [if_pos h]

/-- Unfolding of `packStep` when the segment is appended to the buffer. -/
theorem packStep_eq_neg (cfg : ChunkingConfig) (st : List Str × List Str)
    (seg : Str)
    (h : ¬(st.2 ≠ [] ∧ (currentLengthWith st.2 seg : Int) > cfg.max_chars)) :
    packStep cfg st seg = (st.1, st.2 ++ [seg]) := by
  unfold packStep
  rw [if_neg h]

/-- Unfolding of `packStepSegs` when the chunk closes. -/
theorem packStepSegs_eq_pos (cfg : ChunkingConfig)
    (st : List (List Str) × List Str) (seg : Str)
    (h : st.2 ≠ [] ∧ (currentLengthWith st.2 seg : Int) > cfg.max_chars) :
    packStepSegs cfg st seg =
      (st.1 ++ [st.2],
       (if cfg.overlap_segments > 0 then takeRightNeg cfg.overlap_segments st.2
        else []) ++ [seg]) := by
  unfold packStepSegs
  rw [if_pos h]

/-- Unfolding of `packStepSegs` when the segment is appended. -/
theorem packStepSegs_eq_neg (cfg : ChunkingConfig)
    (st : List (List Str) × List Str) (seg : Str)
    (h : ¬(st.2 ≠ [] ∧ (currentLengthWith st.2 seg : Int) > cfg.max_chars)) :
    packStepSegs cfg st seg = (st.1, st.2 ++ [seg]) := by
  unfold packStepSegs
  rw [if_neg h]

/-- One step of the string packer tracks one step of the seg-level packer
when the buffer holds good segments. -/
theorem packStep_refines (cfg : ChunkingConfig) (chS : List (List Str))
    (cur : List Str) (seg : Str) (hch : GoodChunks chS)
    (hcur : ∀ s ∈ cur, GoodSeg s) (hseg : GoodSeg seg) :
    packStep cfg (chS.map joinSegs, cur) seg =
      ((packStepSegs cfg (chS, cur) seg).1.map joinSegs,
       (packStepSegs cfg (chS, cur) seg).2) ∧
    GoodChunks (packStepSegs cfg (chS, cur) seg).1 ∧
    (∀ s ∈ (packStepSegs cfg (chS, cur) seg).2, GoodSeg s) := by
  by_cases hb : cur ≠ [] ∧ (currentLengthWith cur seg : Int) > cfg.max_chars
  · have hstrip : stripChars (joinSegs cur) = joinSegs cur :=
      stripChars_joinSegs_good cur hb.1 hcur
    have hne : joinSegs cur ≠ [] := joinSegs_ne_nil_of_good cur hb.1 hcur
    rw [packStep_eq_pos cfg _ seg hb, packStepSegs_eq_pos cfg _ seg hb]
    refine ⟨?_, ?_, ?_⟩
    · simp only [hstrip, hne, ne_eq, not_false_iff, if_pos]
      simp [List.map_append]
    · intro c hc
      simp only [List.mem_append, List.mem_singleton] at hc
      rcases hc with hc | hc
      · exact hch c hc
      · exact hc ▸ ⟨hb.1, hcur⟩
    · intro s hs
      simp only [List.mem_append, List.mem_singleton] at hs
      rcases hs with hs | hs
      · by_cases hk : cfg.overlap_segments > 0
        · rw [if_pos hk] at hs
          exact hcur s (List.drop_subset _ _ hs)
        · rw [if_neg hk] at hs
          simp at hs
      · exact hs ▸ hseg
  · rw [packStep_eq_neg cfg _ seg hb, packStepSegs_eq_neg cfg _ seg hb]
    refine ⟨rfl, hch, ?_⟩
    intro s hs
    simp only [List.mem_append, List.mem_singleton] at hs
    rcases hs with hs | hs
    · exact hcur s hs
    · exact hs ▸ hseg

/-- The whole packing loop refines its seg-level ghost. -/
theorem packFold_refines (cfg : ChunkingConfig) :
    ∀ (rest : List Str) (chS : List (List Str)) (cur : List Str),
    GoodChunks chS → (∀ s ∈ cur, GoodSeg s) → (∀ s ∈ rest, GoodSeg s) →
    rest.foldl (packStep cfg) (chS.map joinSegs, cur) =
      ((rest.foldl (packStepSegs cfg) (chS, cur)).1.map joinSegs,
       (rest.foldl (packStepSegs cfg) (chS, cur)).2) ∧
    GoodChunks (rest.foldl (packStepSegs cfg) (chS, cur)).1 ∧
    (∀ s ∈ (rest.foldl (packStepSegs cfg) (chS, cur)).2, GoodSeg s) := by
  intro rest
  induction rest with
  | nil => intro chS cur hch hcur _; exact ⟨rfl, hch, hcur⟩
  | cons seg rest ih =>
    intro chS cur hch hcur hrest
    have hseg : GoodSeg seg := hrest seg (by simp)
    obtain ⟨heq, hch', hcur'⟩ := packStep_refines cfg chS cur seg hch hcur hseg
    simp only [List.foldl_cons, heq]
    exact ih _ _ hch' hcur' (fun s hs => hrest s (by simp [hs]))

/-- `getD` with default `[]` commutes with `map joinSegs`. -/
theorem getD_map_joinSegs (L : List (List Str)) (i : Nat) :
    (L.map joinSegs).getD i [] = joinSegs (L.getD i []) := by
  rw [List.getD_eq_getElem?_getD, List.getD_eq_getElem?_getD, List.getElem?_map]
  cases h : L[i]? with
  | none => rfl
  | some a => rfl

/-- `getLastD` with default `[]` commutes with `map joinSegs`. -/
theorem getLastD_map_joinSegs (L : List (List Str)) :
    (L.map joinSegs).getLastD [] = joinSegs (L.getLastD []) := by
  rw [List.getLastD_eq_getLast?, List.getLastD_eq_getLast?, List.getLast?_map]
  cases h : L.getLast? with
  | none => rfl
  | some a => rfl

/-- An indexed element of a list is a member. -/
theorem getD_mem_of_lt (L : List (List Str)) (i : Nat) (h : i < L.length) :
    L.getD i [] ∈ L := by
  rw [List.getD_eq_getElem L [] h]
  exact List.getElem_mem h

/-- The `getLastD` of a non-empty list is a member. -/
theorem getLastD_mem_of_ne_nil (L : List (List Str)) (h : L ≠ []) :
    L.getLastD [] ∈ L := by
  have h1 : L.getLast? = some (L.getLast h) := List.getLast?_eq_getLast L h
  rw [List.getLastD_eq_getLast?, h1]
  simp

/-- The greedy packing pass refines its seg-level ghost on good segments. -/
theorem preMerge_refines (segs : List Str) (cfg : ChunkingConfig)
    (hG : ∀ s ∈ segs, GoodSeg s) :
    pre_merge_chunks segs cfg = (preChunkSegsList segs cfg).map joinSegs ∧
    GoodChunks (preChunkSegsList segs cfg) := by
  obtain ⟨heq, hch, hcur⟩ :=
    packFold_refines cfg segs [] [] (by intro c hc; simp at hc) (by simp) hG
  set F := segs.foldl (packStepSegs cfg) ([], []) with hF
  have heq' : segs.foldl (packStep cfg) ([], []) = (F.1.map joinSegs, F.2) := heq
  unfold pre_merge_chunks preChunkSegsList finalizeChunks finalizeSegs
  rw [heq', ← hF]
  by_cases hc2 : F.2 ≠ []
  · have hstrip : stripChars (joinSegs F.2) = joinSegs F.2 :=
      stripChars_joinSegs_good F.2 hc2 hcur
    have hne : joinSegs F.2 ≠ [] := joinSegs_ne_nil_of_good F.2 hc2 hcur
    rw [if_pos hc2, if_pos hc2]
    constructor
    · simp only [hstrip, hne, ne_eq, not_false_iff, if_pos]
      simp [List.map_append]
    · intro c hc
      simp only [List.mem_append, List.mem_singleton] at hc
      rcases hc with hc | hc
      · exact hch c hc
      · exact hc ▸ ⟨hc2, hcur⟩
  · rw [if_neg hc2, if_neg hc2]
    exact ⟨rfl, hch⟩

/-- The trailing merge refines its seg-level ghost on good chunks. -/
theorem merge_refines (cfg : ChunkingConfig) (L : List (List Str))
    (hch : GoodChunks L) :
    mergeSmallLast cfg (L.map joinSegs) = (mergeSegs cfg L).map joinSegs ∧
    GoodChunks (mergeSegs cfg L) := by
  unfold mergeSmallLast mergeSegs
  by_cases hg : 2 ≤ L.length ∧ ((joinSegs (L.getLastD [])).length : Int) < cfg.min_chars
  · have hg' : 2 ≤ (L.map joinSegs).length ∧
        (((L.map joinSegs).getLastD []).length : Int) < cfg.min_chars := by
      rw [List.length_map, getLastD_map_joinSegs]
      exact hg
    rw [if_pos hg, if_pos hg']
    have hLne : L ≠ [] := by
      intro h; rw [h] at hg; simp at hg
    have hprevmem : L.getD (L.length - 2) [] ∈ L :=
      getD_mem_of_lt L (L.length - 2) (by omega)
    have hlastmem : L.getLastD [] ∈ L := getLastD_mem_of_ne_nil L hLne
    have hprev := hch _ hprevmem
    have hlast := hch _ hlastmem
    constructor
    · rw [List.length_map, getD_map_joinSegs, getLastD_map_joinSegs,
        ← List.map_dropLast, ← List.map_dropLast]
      rw [← joinSegs_append _ _ hprev.1 hlast.1]
      simp [List.map_append]
    · intro c hc
      simp only [List.mem_append, List.mem_singleton] at hc
      rcases hc with hc | hc
      · exact hch c ((List.dropLast_sublist _).subset ((List.dropLast_sublist _).subset hc))
      · subst hc
        refine ⟨fun hemp => hprev.1 (List.append_eq_nil.mp hemp).1, ?_⟩
        intro s hs
        rcases List.mem_append.mp hs with hs | hs
        · exact hprev.2 s hs
        · exact hlast.2 s hs
  · have hg' : ¬(2 ≤ (L.map joinSegs).length ∧
        (((L.map joinSegs).getLastD []).length : Int) < cfg.min_chars) := by
      rw [List.length_map, getLastD_map_joinSegs]
      exact hg
    rw [if_neg hg, if_neg hg']
    exact ⟨rfl, hch⟩

/-- Master correspondence: on good segments the string packer computes the
`joinSegs` image of the seg-level packer, and all seg-level chunks are
non-empty lists of good segments. -/
theorem build_eq_join (segs : List Str) (cfg : ChunkingConfig)
    (hG : ∀ s ∈ segs, GoodSeg s) :
    build_chunks_from_segments segs cfg = (chunkSegsList segs cfg).map joinSegs ∧
    GoodChunks (chunkSegsList segs cfg) := by
  by_cases hs : segs = []
  · subst hs
    constructor
    · rfl
    · intro c hc
      simp only [chunkSegsList, preChunkSegsList, finalizeSegs, mergeSegs] at hc
      simp at hc
  · obtain ⟨h1, h2⟩ := preMerge_refines segs cfg hG
    obtain ⟨h3, h4⟩ := merge_refines cfg (preChunkSegsList segs cfg) h2
    unfold build_chunks_from_segments chunkSegsList
    rw [if_neg hs, h1, h3]
    exact ⟨rfl, h4⟩

/-!  Claim theorems. -/

theorem build_chunks_nil (cfg : ChunkingConfig) :
    build_chunks_from_segments [] cfg = [] := by
  unfold build_chunks_from_segments
  rw [if_pos rfl]

/-- Claim C3: `chunk_page_text page_text cfg` equals
`build_chunks_from_segments (split_into_segments page_text) cfg`; it
returns the empty sequence when segmentation yields no segments, and empty
input text yields an empty chunk sequence. -/
theorem chunk_page_text_refines_pipeline :
    ∀ (page_text : Str) (cfg : ChunkingConfig),
      chunk_page_text page_text cfg =
        build_chunks_from_segments (split_into_segments page_text) cfg ∧
      (split_into_segments page_text = [] → chunk_page_text page_text cfg = []) ∧
      chunk_page_text [] cfg = [] := by
  intro t cfg
  refine ⟨?_, ?_, ?_⟩
  · show (if split_into_segments t = [] then [] else _) = _
    by_cases h : split_into_segments t = []
    · rw [if_pos h, h, build_chunks_nil]
    · rw [if_neg h]
  · intro h
    show (if split_into_segments t = [] then [] else _) = _
    rw [if_pos h]
  · show (if split_into_segments [] = [] then ([] : List Str)
        else build_chunks_from_segments (split_into_segments []) cfg) = []
    rw [if_pos (show split_into_segments [] = [] from rfl)]

/-- Claim C2: if the greedy packing pass yields at least two chunks and the
final chunk is shorter than `min_chars`, the output is the pre-merge list
with its last two chunks replaced by their `"\n\n"`-concatenation — one
chunk fewer, the merge applied exactly once, with no re-check of the merged
result against `min_chars` or `max_chars`. -/
theorem trailing_merge_once (segs : List Str) (cfg : ChunkingConfig)
    (h2 : 2 ≤ (pre_merge_chunks segs cfg).length)
    (hlt : (((pre_merge_chunks segs cfg).getLastD []).length : Int) < cfg.min_chars) :
    build_chunks_from_segments segs cfg =
      (pre_merge_chunks segs cfg).dropLast.dropLast ++
        [(pre_merge_chunks segs cfg).getD ((pre_merge_chunks segs cfg).length - 2) [] ++
          sepNL2 ++ (pre_merge_chunks segs cfg).getLastD []] ∧
    (build_chunks_from_segments segs cfg).length =
      (pre_merge_chunks segs cfg).length - 1 := by
  have hsegs : segs ≠ [] := by
    intro h
    subst h
    have hpm : pre_merge_chunks [] cfg = [] := rfl
    rw [hpm] at h2
    simp at h2
  unfold build_chunks_from_segments
  rw [if_neg hsegs]
  unfold mergeSmallLast
  rw [if_pos ⟨h2, hlt⟩]
  refine ⟨rfl, ?_⟩
  rw [List.length_append, List.length_dropLast, List.length_dropLast]
  simp only [List.length_singleton]
  omega

/-- Witness for C2 at a concrete input: two segments that pack into two
chunks whose last is under `min_chars`, so they merge into one. -/
theorem trailing_merge_once_witness :
    2 ≤ (pre_merge_chunks [['a', 'a'], ['b', 'b']] ⟨3, 3, 0⟩).length ∧
    (((pre_merge_chunks [['a', 'a'], ['b', 'b']] ⟨3, 3, 0⟩).getLastD []).length : Int) <
      (3 : Int) ∧
    build_chunks_from_segments [['a', 'a'], ['b', 'b']] ⟨3, 3, 0⟩ =
      [['a', 'a', '\n', '\n', 'b', 'b']] ∧
    (build_chunks_from_segments [['a', 'a'], ['b', 'b']] ⟨3, 3, 0⟩).length =
      (pre_merge_chunks [['a', 'a'], ['b', 'b']] ⟨3, 3, 0⟩).length - 1 := by
  have h := trailing_merge_once [['a', 'a'], ['b', 'b']] ⟨3, 3, 0⟩
    (by decide) (by decide)
  refine ⟨by decide, by decide, ?_, h.2⟩
  rw [h.1]
  decide

/-- Claim C4: a single oversized good segment becomes exactly one chunk
containing that whole segment — neither dropped nor split. -/
theorem oversized_single_segment (s : Str) (cfg : ChunkingConfig)
    (hne : s ≠ []) (hstrip : stripChars s = s)
    (_hbig : (s.length : Int) > cfg.max_chars) :
    build_chunks_from_segments [s] cfg = [s] := by
  have hG : ∀ x ∈ [s], GoodSeg x := by
    intro x hx
    rw [List.mem_singleton] at hx
    exact hx ▸ ⟨hne, hstrip⟩
  have hseg : chunkSegsList [s] cfg = [[s]] := by
    unfold chunkSegsList preChunkSegsList
    rw [List.foldl_cons, List.foldl_nil,
      packStepSegs_eq_neg cfg ([], []) s (fun h => h.1 rfl)]
    simp [finalizeSegs, mergeSegs]
  have := (build_eq_join [s] cfg hG).1
  rw [this, hseg]
  simp [joinSegs_single]

/-- Witness for C4 at a concrete input: a 2-character segment with
`max_chars = 1`. -/
theorem oversized_single_segment_witness :
    (['a', 'b'] : Str) ≠ [] ∧ stripChars ['a', 'b'] = ['a', 'b'] ∧
    ((['a', 'b'] : Str).length : Int) > (1 : Int) ∧
    build_chunks_from_segments [['a', 'b']] ⟨1, 0, 0⟩ = [['a', 'b']] :=
  ⟨by decide, by decide, by decide,
    oversized_single_segment ['a', 'b'] ⟨1, 0, 0⟩ (by decide) (by decide) (by decide)⟩

theorem mergeSmallLastChecked_eq (cfg : ChunkingConfig) (L : List Str) :
    mergeSmallLastChecked cfg L = some (mergeSmallLast cfg L) := by
  unfold mergeSmallLastChecked mergeSmallLast
  by_cases h2 : 2 ≤ L.length
  · have hLne : L ≠ [] := by
      intro h; subst h; simp at h2
    have hget1 : L.get? (L.length - 1) = some (L.getLastD []) := by
      rw [List.get?_eq_getElem?, ← List.getLast?_eq_getElem?,
        List.getLastD_eq_getLast?, List.getLast?_eq_getLast L hLne]
      rfl
    have hget2 : L.get? (L.length - 2) = some (L.getD (L.length - 2) []) := by
      have hlt : L.length - 2 < L.length := by omega
      rw [List.get?_eq_getElem?, List.getElem?_eq_getElem hlt,
        List.getD_eq_getElem L [] hlt]
    rw [if_pos h2, hget1, Option.some_bind]
    by_cases hmin : ((L.getLastD []).length : Int) < cfg.min_chars
    · rw [if_pos hmin, hget2, Option.some_bind, if_pos ⟨h2, hmin⟩]
    · rw [if_neg hmin, if_neg (fun h => hmin h.2)]
  · rw [if_neg h2, if_neg (fun h => h2 h.1)]

/-- Claim C9: the chunking core is total — on every input text, segment
list and configuration, the checked versions (in which every partial
indexing operation of the Python code is guarded) return `some` of the
plain result: no error branch is ever taken. -/
theorem chunking_core_total :
    ∀ (page_text : Str) (segs : List Str) (cfg : ChunkingConfig),
      build_chunks_from_segments_checked segs cfg =
        some (build_chunks_from_segments segs cfg) ∧
      chunk_page_text_checked page_text cfg = some (chunk_page_text page_text cfg) := by
  have hbuild : ∀ (segs : List Str) (cfg : ChunkingConfig),
      build_chunks_from_segments_checked segs cfg =
        some (build_chunks_from_segments segs cfg) := by
    intro segs cfg
    unfold build_chunks_from_segments_checked build_chunks_from_segments
    by_cases h : segs = []
    · rw [if_pos h, if_pos h]
    · rw [if_neg h, if_neg h, mergeSmallLastChecked_eq]
  intro t segs cfg
  refine ⟨hbuild segs cfg, ?_⟩
  unfold chunk_page_text_checked chunk_page_text
  by_cases h : split_into_segments t = []
  · rw [if_pos h, if_pos h]
  · rw [if_neg h, if_neg h, hbuild]

/-!  Overlap chain: machinery for claim C1. -/

/-- Generic preservation of an invariant along `List.foldl`. -/
theorem foldl_preserves {σ α : Type _} (P : σ → Prop) (f : σ → α → σ)
    (hstep : ∀ s a, P s → P (f s a)) :
    ∀ (l : List α) (s : σ), P s → P (l.foldl f s) := by
  intro l
  induction l with
  | nil => intro s hs; exact hs
  | cons a l ih => intro s hs; exact ih _ (hstep s a hs)

/-- Any list of length at least two is its double-`dropLast` followed by
its last two elements. -/
theorem two_last_decomp {α : Type _} (L : List α) (d : α) (h : 2 ≤ L.length) :
    L = L.dropLast.dropLast ++ [L.getD (L.length - 2) d, L.getLastD d] := by
  have hn1 : L.length - 2 < L.length := by omega
  have hn2 : L.length - 1 < L.length := by omega
  have h1 : L.getD (L.length - 2) d = L[L.length - 2] := List.getD_eq_getElem L d hn1
  have h2 : L.getLastD d = L[L.length - 1] := by
    rw [List.getLastD_eq_getLast?, List.getLast?_eq_getElem?,
      List.getElem?_eq_getElem hn2]
    rfl
  have hlen1 : L.dropLast.length = L.length - 1 := List.length_dropLast L
  have h3 : L.dropLast.dropLast = L.take (L.length - 2) := by
    rw [List.dropLast_eq_take L.dropLast, hlen1, List.dropLast_eq_take L,
      List.take_take]
    congr 1
    omega
  rw [h1, h2, h3]
  have h4 : L.drop (L.length - 2) = [L[L.length - 2], L[L.length - 1]] := by
    rw [List.drop_eq_getElem_cons hn1]
    congr 1
    have he : L.length - 2 + 1 = L.length - 1 := by omega
    rw [he, List.drop_eq_getElem_cons hn2]
    congr 1
    apply List.drop_eq_nil_of_le
    omega
  conv_lhs => rw [← List.take_append_drop (L.length - 2) L, h4]

/-- The packing loop keeps (a) consecutive chunks linked by the overlap
prefix relation and (b) the overlap of the last closed chunk a prefix of
the current buffer. -/
theorem packStepSegs_chain (cfg : ChunkingConfig)
    (hk : 0 < cfg.overlap_segments)
    (st : List (List Str) × List Str) (seg : Str)
    (hP : List.Chain' (fun c d => takeRightNeg cfg.overlap_segments c <+: d) st.1 ∧
      ∀ lc ∈ st.1.getLast?, takeRightNeg cfg.overlap_segments lc <+: st.2) :
    List.Chain' (fun c d => takeRightNeg cfg.overlap_segments c <+: d)
      (packStepSegs cfg st seg).1 ∧
    ∀ lc ∈ (packStepSegs cfg st seg).1.getLast?,
      takeRightNeg cfg.overlap_segments lc <+: (packStepSegs cfg st seg).2 := by
  by_cases hb : st.2 ≠ [] ∧ (currentLengthWith st.2 seg : Int) > cfg.max_chars
  · rw [packStepSegs_eq_pos cfg st seg hb]
    constructor
    · rw [List.chain'_append]
      refine ⟨hP.1, List.chain'_singleton _, ?_⟩
      intro x hx y hy
      simp only [List.head?_cons, Option.mem_some_iff] at hy
      subst hy
      exact hP.2 x hx
    · intro lc hlc
      rw [List.getLast?_concat] at hlc
      simp only [Option.mem_some_iff] at hlc
      subst hlc
      rw [if_pos hk]
      exact List.prefix_append _ _
  · rw [packStepSegs_eq_neg cfg st seg hb]
    refine ⟨hP.1, ?_⟩
    intro lc hlc
    exact (hP.2 lc hlc).trans (List.prefix_append _ _)

/-- Consecutive pre-merge chunks are linked by the overlap prefix
relation. -/
theorem chain_preChunk (segs : List Str) (cfg : ChunkingConfig)
    (hk : 0 < cfg.overlap_segments) :
    List.Chain' (fun c d => takeRightNeg cfg.overlap_segments c <+: d)
      (preChunkSegsList segs cfg) := by
  have hinv := foldl_preserves
    (fun st : List (List Str) × List Str =>
      List.Chain' (fun c d => takeRightNeg cfg.overlap_segments c <+: d) st.1 ∧
      ∀ lc ∈ st.1.getLast?, takeRightNeg cfg.overlap_segments lc <+: st.2)
    (packStepSegs cfg)
    (fun st seg hP => packStepSegs_chain cfg hk st seg hP)
    segs ([], []) (by constructor <;> simp)
  unfold preChunkSegsList finalizeSegs
  set F := segs.foldl (packStepSegs cfg) ([], [])
  by_cases hc : F.2 ≠ []
  · rw [if_pos hc, List.chain'_append]
    refine ⟨hinv.1, List.chain'_singleton _, ?_⟩
    intro x hx y hy
    simp only [List.head?_cons, Option.mem_some_iff] at hy
    subst hy
    exact hinv.2 x hx
  · rw [if_neg hc]
    exact hinv.1

/-- The trailing merge preserves the overlap prefix chain. -/
theorem chain_mergeSegs (cfg : ChunkingConfig) (L : List (List Str))
    (h : List.Chain' (fun c d => takeRightNeg cfg.overlap_segments c <+: d) L) :
    List.Chain' (fun c d => takeRightNeg cfg.overlap_segments c <+: d)
      (mergeSegs cfg L) := by
  unfold mergeSegs
  by_cases hg : 2 ≤ L.length ∧
      ((joinSegs (L.getLastD [])).length : Int) < cfg.min_chars
  · rw [if_pos hg]
    have hdec := two_last_decomp L [] hg.1
    rw [hdec, List.chain'_append] at h
    obtain ⟨hf, _, hlink⟩ := h
    have hdl : (L.dropLast.dropLast ++
        [L.getD (L.length - 2) [], L.getLastD []]).dropLast.dropLast =
        L.dropLast.dropLast := by
      rw [show [L.getD (L.length - 2) [], L.getLastD []] =
        [L.getD (L.length - 2) []] ++ [L.getLastD []] from rfl,
        ← List.append_assoc, List.dropLast_concat, List.dropLast_concat]
    rw [List.chain'_append]
    refine ⟨hf, List.chain'_singleton _, ?_⟩
    intro x hx y hy
    simp only [List.head?_cons, Option.mem_some_iff] at hy
    subst hy
    exact (hlink x hx (L.getD (L.length - 2) []) rfl).trans (List.prefix_append _ _)
  · rw [if_neg hg]
    exact h

/-- Claim C1: for good segments and `overlap_segments = k > 0`, the last
`min(k, number of segments of chunk i)` segments of every chunk reappear
verbatim as the leading segments of chunk `i+1`; the string chunks are
exactly the `"\n\n"`-joins of those segment sequences. -/
theorem overlap_reappears (segs : List Str) (cfg : ChunkingConfig)
    (hG : ∀ s ∈ segs, GoodSeg s) (hk : 0 < cfg.overlap_segments) :
    build_chunks_from_segments segs cfg = (chunkSegsList segs cfg).map joinSegs ∧
    ∀ i : Nat, i + 1 < (chunkSegsList segs cfg).length →
      takeRightNeg cfg.overlap_segments ((chunkSegsList segs cfg).getD i []) <+:
        (chunkSegsList segs cfg).getD (i + 1) [] := by
  refine ⟨(build_eq_join segs cfg hG).1, ?_⟩
  have hchain := chain_mergeSegs cfg _ (chain_preChunk segs cfg hk)
  rw [show mergeSegs cfg (preChunkSegsList segs cfg) = chunkSegsList segs cfg
    from rfl] at hchain
  rw [List.chain'_iff_get] at hchain
  intro i hi
  have h1 : i < (chunkSegsList segs cfg).length - 1 := by omega
  have hr := hchain i h1
  rw [List.getD_eq_getElem _ [] (by omega : i < (chunkSegsList segs cfg).length),
    List.getD_eq_getElem _ [] hi]
  simpa [List.get_eq_getElem] using hr

/-- Witness for C1 at a concrete input: two 2-character segments with
`max_chars = 3` and `overlap_segments = 1` give chunks `[s1]` and
`[s1, s2]`. -/
theorem overlap_reappears_witness :
    build_chunks_from_segments [['a', 'b'], ['c', 'd']] ⟨3, 0, 1⟩ =
      (chunkSegsList [['a', 'b'], ['c', 'd']] ⟨3, 0, 1⟩).map joinSegs ∧
    takeRightNeg 1 ((chunkSegsList [['a', 'b'], ['c', 'd']] ⟨3, 0, 1⟩).getD 0 []) <+:
      (chunkSegsList [['a', 'b'], ['c', 'd']] ⟨3, 0, 1⟩).getD 1 [] := by
  have h := overlap_reappears [['a', 'b'], ['c', 'd']] ⟨3, 0, 1⟩
    (by
      intro s hs
      simp only [List.mem_cons, List.not_mem_nil, or_false] at hs
      rcases hs with h | h <;> subst h <;> exact ⟨by decide, by decide⟩)
    (by decide)
  exact ⟨h.1, h.2 0 (by decide)⟩

/-!  Sliding-window structure: machinery for claim C5. -/

/-- Length of a window slice. -/
theorem slice_length {α : Type _} (L : List α) (a n : Nat) (ha : a ≤ n)
    (hn : n ≤ L.length) : ((L.drop a).take (n - a)).length = n - a := by
  simp only [List.length_take, List.length_drop]
  omega

/-- Extending a window slice by the next element. -/
theorem slice_snoc {α : Type _} (L : List α) (a n : Nat) (ha : a ≤ n)
    (hn : n < L.length) :
    (L.drop a).take (n - a) ++ [L[n]] = (L.drop a).take (n + 1 - a) := by
  have h1 : n + 1 - a = (n - a) + 1 := by omega
  have h2 : n - a < (L.drop a).length := by
    simp only [List.length_drop]
    omega
  rw [h1, List.take_succ, List.getElem?_eq_getElem h2]
  simp only [Option.toList_some]
  congr 2
  rw [List.getElem_drop]
  congr 1
  omega

/-- A later part of a window slice is itself a window slice. -/
theorem slice_drop {α : Type _} (L : List α) (a m j : Nat) :
    ((L.drop a).take m).drop j = (L.drop (a + j)).take (m - j) := by
  rw [List.drop_take, List.drop_drop]

/-- Appending one more window to a window chain. -/
theorem winChainTo_snoc (segs : List Str) :
    ∀ (cs : List (List Str)) (mA mE oA oE a : Nat) (c : List Str),
    WinChainTo segs cs mA mE oA oE →
    oA ≤ a → oE ≤ a + c.length → c ≠ [] →
    c = (segs.drop a).take c.length → a + c.length ≤ segs.length →
    WinChainTo segs (cs ++ [c]) mA mE a (a + c.length + 1) := by
  intro cs
  induction cs with
  | nil =>
    intro mA mE oA oE a c h hA hE hne hc hlen
    obtain ⟨h1, h2⟩ := h
    exact ⟨a, by omega, hne, hc, hlen, by omega, rfl, rfl⟩
  | cons c0 cs ih =>
    intro mA mE oA oE a c h hA hE hne hc hlen
    obtain ⟨a0, ha0A, hne0, hc0, hlen0, hE0, hrest⟩ := h
    exact ⟨a0, ha0A, hne0, hc0, hlen0, hE0, ih _ _ _ _ _ _ hrest hA hE hne hc hlen⟩

/-- Main fold invariant: the chunks accumulated by the seg-level packing
loop are non-empty contiguous slices of `segs` with non-decreasing starts
and strictly increasing ends, and the buffer is the still-open slice. -/
theorem pack_windows (segs : List Str) (cfg : ChunkingConfig) :
    ∀ (rest : List Str) (n : Nat) (chunks : List (List Str)) (cur : List Str)
      (a oA oE : Nat),
    segs.drop n = rest → n ≤ segs.length →
    a ≤ n → cur = (segs.drop a).take (n - a) → (cur = [] → a = n) →
    WinChainTo segs chunks 0 0 oA oE → oA ≤ a → oE ≤ n →
    ∃ oA2 oE2, WinChainTo segs
      (finalizeSegs (rest.foldl (packStepSegs cfg) (chunks, cur))) 0 0 oA2 oE2 := by
  intro rest
  induction rest with
  | nil =>
    intro n chunks cur a oA oE hdrop hn ha hcur hcurnil hW hoA hoE
    rw [List.foldl_nil]
    show ∃ oA2 oE2, WinChainTo segs
      (if cur ≠ [] then chunks ++ [cur] else chunks) 0 0 oA2 oE2
    by_cases hc : cur ≠ []
    · rw [if_pos hc]
      have hclen : cur.length = n - a := by
        rw [hcur]
        exact slice_length segs a n ha hn
      have haln : a < n := by
        by_contra hgea
        have h0 : n - a = 0 := by omega
        apply hc
        rw [hcur, h0, List.take_zero]
      refine ⟨a, a + cur.length + 1, ?_⟩
      exact winChainTo_snoc segs chunks 0 0 oA oE a cur hW hoA (by omega) hc
        (by rw [hclen]; exact hcur) (by omega)
    · rw [if_neg hc]
      exact ⟨oA, oE, hW⟩
  | cons seg rest ih =>
    intro n chunks cur a oA oE hdrop hn ha hcur hcurnil hW hoA hoE
    have hnlt : n < segs.length := by
      by_contra hge
      rw [List.drop_eq_nil_of_le (by omega)] at hdrop
      exact List.noConfusion hdrop
    have hseg : segs[n] = seg ∧ segs.drop (n + 1) = rest := by
      rw [List.drop_eq_getElem_cons hnlt] at hdrop
      refine ⟨?_, ?_⟩
      · exact (List.cons.injEq _ _ _ _ ▸ hdrop).1
      · exact (List.cons.injEq _ _ _ _ ▸ hdrop).2
    rw [List.foldl_cons]
    by_cases hb : cur ≠ [] ∧ (currentLengthWith cur seg : Int) > cfg.max_chars
    · rw [show packStepSegs cfg (chunks, cur) seg =
        (chunks ++ [cur],
         (if cfg.overlap_segments > 0 then takeRightNeg cfg.overlap_segments cur
          else []) ++ [seg]) from packStepSegs_eq_pos cfg (chunks, cur) seg hb]
      have hclen : cur.length = n - a := by
        rw [hcur]
        exact slice_length segs a n ha (by omega)
      have haln : a < n := by
        by_contra hgea
        have h0 : n - a = 0 := by omega
        apply hb.1
        rw [hcur, h0, List.take_zero]
      have hWnew : WinChainTo segs (chunks ++ [cur]) 0 0 a (n + 1) := by
        have h := winChainTo_snoc segs chunks 0 0 oA oE a cur hW hoA
          (by omega) hb.1 (by rw [hclen]; exact hcur) (by omega)
        have he : a + cur.length + 1 = n + 1 := by omega
        rwa [he] at h
      by_cases hk : cfg.overlap_segments > 0
      · rw [if_pos hk]
        have hover : takeRightNeg cfg.overlap_segments cur =
            (segs.drop (a + (cur.length - cfg.overlap_segments.toNat))).take
              (n - (a + (cur.length - cfg.overlap_segments.toNat))) := by
          unfold takeRightNeg
          have hlen : (List.take (n - a) (List.drop a segs)).length = n - a :=
            slice_length segs a n ha (by omega)
          rw [hcur, hlen, slice_drop]
          congr 1
          omega
        refine ih (n + 1) (chunks ++ [cur])
          ((takeRightNeg cfg.overlap_segments cur) ++ [seg])
          (a + (cur.length - cfg.overlap_segments.toNat)) a (n + 1)
          hseg.2 (by omega) (by omega) ?_ ?_ hWnew (by omega) (by omega)
        · rw [hover, ← hseg.1]
          exact slice_snoc segs _ n (by omega) hnlt
        · intro hemp
          simp at hemp
      · rw [if_neg hk]
        refine ih (n + 1) (chunks ++ [cur]) ([] ++ [seg]) n a (n + 1)
          hseg.2 (by omega) (by omega) ?_ ?_ hWnew (by omega) (by omega)
        · rw [List.nil_append, ← hseg.1]
          rw [show ([segs[n]] : List Str) =
            (segs.drop n).take (n - n) ++ [segs[n]] by simp]
          exact slice_snoc segs n n (by omega) hnlt
        · intro hemp
          simp at hemp
    · rw [packStepSegs_eq_neg cfg (chunks, cur) seg hb]
      refine ih (n + 1) chunks (cur ++ [seg]) a oA oE hseg.2 (by omega) (by omega)
        ?_ ?_ hW hoA (by omega)
      · rw [hcur, ← hseg.1]
        exact slice_snoc segs a n ha hnlt
      · intro hemp
        simp at hemp

/-- Claim C5: for a non-empty list of good segments and a valid config,
every output chunk is non-empty after trimming, and the chunks are ordered
with their constituent segments: the pre-merge chunks are non-empty
contiguous slices of the input with non-decreasing starts and strictly
increasing ends (`WinChainTo`), and the output is their `"\n\n"`-join
image, except that possibly the last two are concatenated by the trailing
merge. -/
theorem chunks_nonempty_and_ordered (segs : List Str) (cfg : ChunkingConfig)
    (_hne : segs ≠ []) (hG : ∀ s ∈ segs, GoodSeg s)
    (_hmax : 0 < cfg.max_chars) (_hmin : 0 ≤ cfg.min_chars)
    (_hk : 0 ≤ cfg.overlap_segments) :
    (∀ c ∈ build_chunks_from_segments segs cfg, stripChars c ≠ []) ∧
    (∃ oA oE, WinChainTo segs (preChunkSegsList segs cfg) 0 0 oA oE) ∧
    (build_chunks_from_segments segs cfg =
        (preChunkSegsList segs cfg).map joinSegs ∨
      ∃ front c1 c2, preChunkSegsList segs cfg = front ++ [c1, c2] ∧
        build_chunks_from_segments segs cfg =
          (front ++ [c1 ++ c2]).map joinSegs) := by
  obtain ⟨hbe, hgc⟩ := build_eq_join segs cfg hG
  refine ⟨?_, ?_, ?_⟩
  · intro c hc
    rw [hbe] at hc
    obtain ⟨c', hc', rfl⟩ := List.mem_map.mp hc
    have hg := hgc c' hc'
    rw [stripChars_joinSegs_good c' hg.1 hg.2]
    exact joinSegs_ne_nil_of_good c' hg.1 hg.2
  · exact pack_windows segs cfg segs 0 [] [] 0 0 0 (List.drop_zero segs)
      (by omega) (by omega) (by simp) (fun _ => rfl) ⟨rfl, rfl⟩ (by omega) (by omega)
  · rw [hbe]
    unfold chunkSegsList mergeSegs
    by_cases hg2 : 2 ≤ (preChunkSegsList segs cfg).length ∧
        ((joinSegs ((preChunkSegsList segs cfg).getLastD [])).length : Int) <
          cfg.min_chars
    · right
      refine ⟨(preChunkSegsList segs cfg).dropLast.dropLast,
        (preChunkSegsList segs cfg).getD ((preChunkSegsList segs cfg).length - 2) [],
        (preChunkSegsList segs cfg).getLastD [], ?_, ?_⟩
      · exact two_last_decomp _ [] hg2.1
      · rw [if_pos hg2]
    · left
      rw [if_neg hg2]

/-- Witness for C5 at a concrete input. -/
theorem chunks_nonempty_and_ordered_witness :
    (∀ c ∈ build_chunks_from_segments [['a', 'b'], ['c', 'd']] ⟨3, 0, 1⟩,
      stripChars c ≠ []) ∧
    (∃ oA oE, WinChainTo [['a', 'b'], ['c', 'd']]
      (preChunkSegsList [['a', 'b'], ['c', 'd']] ⟨3, 0, 1⟩) 0 0 oA oE) ∧
    (build_chunks_from_segments [['a', 'b'], ['c', 'd']] ⟨3, 0, 1⟩ =
        (preChunkSegsList [['a', 'b'], ['c', 'd']] ⟨3, 0, 1⟩).map joinSegs ∨
      ∃ front c1 c2,
        preChunkSegsList [['a', 'b'], ['c', 'd']] ⟨3, 0, 1⟩ = front ++ [c1, c2] ∧
        build_chunks_from_segments [['a', 'b'], ['c', 'd']] ⟨3, 0, 1⟩ =
          (front ++ [c1 ++ c2]).map joinSegs) :=
  chunks_nonempty_and_ordered [['a', 'b'], ['c', 'd']] ⟨3, 0, 1⟩
    (by decide)
    (by
      intro s hs
      simp only [List.mem_cons, List.not_mem_nil, or_false] at hs
      rcases hs with h | h <;> subst h <;> exact ⟨by decide, by decide⟩)
    (by decide) (by decide) (by decide)

/-!  Content preservation without overlap: machinery for claim C10. -/

/-- With `overlap_segments ≤ 0` the packing loop only ever partitions: the
chunks so far plus the buffer always concatenate to the processed input. -/
theorem pack_flatten_no_overlap (cfg : ChunkingConfig)
    (hk : ¬cfg.overlap_segments > 0) :
    ∀ (rest : List Str) (chunks : List (List Str)) (cur : List Str),
    ((rest.foldl (packStepSegs cfg) (chunks, cur)).1.flatten ++
      (rest.foldl (packStepSegs cfg) (chunks, cur)).2) =
      chunks.flatten ++ cur ++ rest := by
  intro rest
  induction rest with
  | nil =>
    intro chunks cur
    simp
  | cons seg rest ih =>
    intro chunks cur
    rw [List.foldl_cons]
    by_cases hb : cur ≠ [] ∧ (currentLengthWith cur seg : Int) > cfg.max_chars
    · rw [show packStepSegs cfg (chunks, cur) seg =
        (chunks ++ [cur],
         (if cfg.overlap_segments > 0 then takeRightNeg cfg.overlap_segments cur
          else []) ++ [seg]) from packStepSegs_eq_pos cfg (chunks, cur) seg hb,
        if_neg hk]
      rw [ih]
      simp [List.append_assoc]
    · rw [packStepSegs_eq_neg cfg (chunks, cur) seg hb, ih]
      simp [List.append_assoc]

/-- The trailing merge does not change the concatenation of the seg-level
chunks. -/
theorem flatten_mergeSegs (cfg : ChunkingConfig) (L : List (List Str)) :
    (mergeSegs cfg L).flatten = L.flatten := by
  unfold mergeSegs
  by_cases hg : 2 ≤ L.length ∧
      ((joinSegs (L.getLastD [])).length : Int) < cfg.min_chars
  · rw [if_pos hg]
    conv_rhs => rw [two_last_decomp L [] hg.1]
    simp [List.append_assoc]
  · rw [if_neg hg]

/-- With zero overlap, the seg-level chunks concatenate back to the input
segments. -/
theorem flatten_chunkSegs_no_overlap (segs : List Str) (cfg : ChunkingConfig)
    (hk : cfg.overlap_segments = 0) :
    (chunkSegsList segs cfg).flatten = segs := by
  unfold chunkSegsList
  rw [flatten_mergeSegs]
  unfold preChunkSegsList
  have h := pack_flatten_no_overlap cfg (by omega) segs [] []
  set F := segs.foldl (packStepSegs cfg) ([], []) with hF
  simp only [List.flatten_nil, List.nil_append] at h
  unfold finalizeSegs
  by_cases hc : F.2 ≠ []
  · rw [if_pos hc]
    rw [List.flatten_append]
    simpa using h
  · rw [if_neg hc]
    push_neg at hc
    rw [hc, List.append_nil] at h
    exact h

/-- A flattened list of non-empty chunks joined with `"\n\n"` equals the
chunk strings joined with `"\n\n"`. -/
theorem joinSegs_map_joinSegs (L : List (List Str)) (h : ∀ c ∈ L, c ≠ []) :
    joinSegs (L.map joinSegs) = joinSegs L.flatten := by
  induction L with
  | nil => rfl
  | cons c L ih =>
    cases L with
    | nil => simp [joinSegs_single]
    | cons c2 L2 =>
      have hfl : (c2 :: L2).flatten ≠ [] := by
        have hc2 : c2 ≠ [] := h c2 (by simp)
        simp only [List.flatten_cons]
        intro hemp
        exact hc2 (List.append_eq_nil.mp hemp).1
      have hc : c ≠ [] := h c (by simp)
      rw [List.map_cons, List.flatten_cons]
      rw [show joinSegs c :: List.map joinSegs (c2 :: L2) =
        [joinSegs c] ++ List.map joinSegs (c2 :: L2) from rfl]
      rw [joinSegs_append [joinSegs c] _ (by simp) (by simp), joinSegs_single]
      rw [ih (fun x hx => h x (by simp [hx]))]
      rw [joinSegs_append c _ hc hfl]

/-- Claim C10: with `overlap_segments = 0`, joining the output chunks with
`"\n\n"` gives exactly the input segments joined with `"\n\n"`: no segment
text is lost, duplicated or reordered, and the trailing merge does not
change the joined result. -/
theorem join_preserved_no_overlap (segs : List Str) (cfg : ChunkingConfig)
    (hG : ∀ s ∈ segs, GoodSeg s) (hk : cfg.overlap_segments = 0) :
    joinSegs (build_chunks_from_segments segs cfg) = joinSegs segs := by
  by_cases hs : segs = []
  · subst hs
    rw [build_chunks_nil]
  · obtain ⟨hbe, hgc⟩ := build_eq_join segs cfg hG
    rw [hbe, joinSegs_map_joinSegs _ (fun c hc => (hgc c hc).1),
      flatten_chunkSegs_no_overlap segs cfg hk]

/-- Witness for C10 at a concrete input where both a chunk split and the
trailing merge occur. -/
theorem join_preserved_no_overlap_witness :
    joinSegs (build_chunks_from_segments [['a', 'b'], ['c', 'd']] ⟨3, 3, 0⟩) =
      joinSegs [['a', 'b'], ['c', 'd']] :=
  join_preserved_no_overlap [['a', 'b'], ['c', 'd']] ⟨3, 3, 0⟩
    (by
      intro s hs
      simp only [List.mem_cons, List.not_mem_nil, or_false] at hs
      rcases hs with h | h <;> subst h <;> exact ⟨by decide, by decide⟩)
    rfl

/-- Claim C8: on the two-clause sample text, the segmenter yields exactly
the two clause segments in order, and `chunk_page_text` with the default
config yields the single chunk joining them with a blank line. -/
theorem clausula_scenario :
    split_into_segments "CLÁUSULA 1\nFoo bar.\n\nCLÁUSULA 2\nBaz qux.".toList =
      ["CLÁUSULA 1\nFoo bar.".toList, "CLÁUSULA 2\nBaz qux.".toList] ∧
    chunk_page_text "CLÁUSULA 1\nFoo bar.\n\nCLÁUSULA 2\nBaz qux.".toList {} =
      ["CLÁUSULA 1\nFoo bar.".toList ++ sepNL2 ++
        "CLÁUSULA 2\nBaz qux.".toList] := by
  decide

/-!  Claim C7: three 1000-character segments under the default config. -/

theorem length_joinSegs_pair (a b : Str) :
    (joinSegs [a, b]).length = a.length + 2 + b.length := by
  rw [joinSegs_cons_cons, joinSegs_single]
  simp [sepNL2]
  omega

theorem length_joinSegs_triple (a b c : Str) :
    (joinSegs [a, b, c]).length = a.length + 2 + b.length + 2 + c.length := by
  rw [joinSegs_cons_cons]
  simp [length_joinSegs_pair, sepNL2]
  omega

/-- Claim C7: three whitespace-stripped segments of exactly 1000 characters
with `max_chars = 1500`, `min_chars = 400`, `overlap_segments = 1` produce
exactly the chunks `s1`, `s1 ++ "\n\n" ++ s2` and `s2 ++ "\n\n" ++ s3` —
overlap duplicates `s1` and `s2` across chunk boundaries, and no trailing
merge occurs since the last chunk has 2002 ≥ 400 characters. -/
theorem three_kiloseg_scenario (s1 s2 s3 : Str)
    (h1 : s1.length = 1000) (h2 : s2.length = 1000) (h3 : s3.length = 1000)
    (g1 : stripChars s1 = s1) (g2 : stripChars s2 = s2)
    (g3 : stripChars s3 = s3) :
    build_chunks_from_segments [s1, s2, s3] ⟨1500, 400, 1⟩ =
      [s1, s1 ++ sepNL2 ++ s2, s2 ++ sepNL2 ++ s3] := by
  have hne1 : s1 ≠ [] := by intro h; rw [h] at h1; simp at h1
  have hne2 : s2 ≠ [] := by intro h; rw [h] at h2; simp at h2
  have hne3 : s3 ≠ [] := by intro h; rw [h] at h3; simp at h3
  have hG : ∀ s ∈ [s1, s2, s3], GoodSeg s := by
    intro s hs
    simp only [List.mem_cons, List.not_mem_nil, or_false] at hs
    rcases hs with h | h | h <;> subst h
    · exact ⟨hne1, g1⟩
    · exact ⟨hne2, g2⟩
    · exact ⟨hne3, g3⟩
  have hc2 : (currentLengthWith [s1] s2 : Int) >
      (⟨1500, 400, 1⟩ : ChunkingConfig).max_chars := by
    unfold currentLengthWith
    rw [show ([s1] ++ [s2] : List Str) = [s1, s2] from rfl,
      length_joinSegs_pair, h1, h2]
    decide
  have hc3 : (currentLengthWith [s1, s2] s3 : Int) >
      (⟨1500, 400, 1⟩ : ChunkingConfig).max_chars := by
    unfold currentLengthWith
    rw [show ([s1, s2] ++ [s3] : List Str) = [s1, s2, s3] from rfl,
      length_joinSegs_triple, h1, h2, h3]
    decide
  have hov : ∀ cur : List Str,
      (if (⟨1500, 400, 1⟩ : ChunkingConfig).overlap_segments > 0 then
        takeRightNeg (⟨1500, 400, 1⟩ : ChunkingConfig).overlap_segments cur
      else []) = takeRightNeg 1 cur :=
    fun _ => if_pos (by decide)
  have hslist : chunkSegsList [s1, s2, s3] ⟨1500, 400, 1⟩ =
      [[s1], [s1, s2], [s2, s3]] := by
    unfold chunkSegsList preChunkSegsList
    rw [List.foldl_cons,
      packStepSegs_eq_neg ⟨1500, 400, 1⟩ ([], []) s1 (fun h => h.1 rfl)]
    simp only [List.nil_append]
    rw [List.foldl_cons,
      packStepSegs_eq_pos ⟨1500, 400, 1⟩ ([], [s1]) s2 ⟨by simp, hc2⟩]
    simp only [List.nil_append, hov]
    rw [show takeRightNeg 1 [s1] = [s1] by simp [takeRightNeg]]
    simp only [List.singleton_append]
    rw [List.foldl_cons,
      packStepSegs_eq_pos ⟨1500, 400, 1⟩ ([[s1]], [s1, s2]) s3 ⟨by simp, hc3⟩]
    simp only [hov]
    rw [show takeRightNeg 1 [s1, s2] = [s2] by simp [takeRightNeg]]
    simp only [List.singleton_append]
    rw [List.foldl_nil]
    rw [show finalizeSegs ([[s1], [s1, s2]], [s2, s3]) =
      [[s1], [s1, s2], [s2, s3]] by simp [finalizeSegs]]
    unfold mergeSegs
    rw [if_neg]
    intro hcon
    have hl := hcon.2
    rw [show ([[s1], [s1, s2], [s2, s3]] : List (List Str)).getLastD [] =
      [s2, s3] from rfl, length_joinSegs_pair, h2, h3] at hl
    exact absurd hl (by decide)
  have hbe := (build_eq_join [s1, s2, s3] ⟨1500, 400, 1⟩ hG).1
  rw [hbe, hslist]
  simp only [List.map_cons, List.map_nil, joinSegs_cons_cons, joinSegs_single]

/-- Stripping a repetition of a non-whitespace character is the
identity. -/
theorem stripChars_replicate (n : Nat) (c : Char) (hc : isPyWS c = false) :
    stripChars (List.replicate n c) = List.replicate n c := by
  apply stripChars_eq_self_of_ends
  · intro d hd
    cases n with
    | zero => simp at hd
    | succ m =>
      rw [List.replicate_succ, List.head?_cons, Option.some_inj] at hd
      rw [← hd]
      exact hc
  · intro d hd
    cases n with
    | zero => simp at hd
    | succ m =>
      rw [List.replicate_succ', List.getLast?_concat, Option.some_inj] at hd
      rw [← hd]
      exact hc

/-- Witness for C7 at a concrete input: three 1000-character segments. -/
theorem three_kiloseg_scenario_witness :
    build_chunks_from_segments
      [List.replicate 1000 'a', List.replicate 1000 'b', List.replicate 1000 'c']
      ⟨1500, 400, 1⟩ =
      [List.replicate 1000 'a',
       List.replicate 1000 'a' ++ sepNL2 ++ List.replicate 1000 'b',
       List.replicate 1000 'b' ++ sepNL2 ++ List.replicate 1000 'c'] :=
  three_kiloseg_scenario (List.replicate 1000 'a') (List.replicate 1000 'b')
    (List.replicate 1000 'c') (by rw [List.length_replicate])
    (by rw [List.length_replicate]) (by rw [List.length_replicate])
    (stripChars_replicate 1000 'a' (by decide))
    (stripChars_replicate 1000 'b' (by decide))
    (stripChars_replicate 1000 'c' (by decide))

/-!  Idempotence of `normalize_whitespace`: machinery for claim C6. -/

theorem csp_cons_cons (c1 c2 : Char) (rest : Str) :
    collapseSpaces (c1 :: c2 :: rest) =
      if c1 = ' ' ∧ c2 = ' ' then collapseSpaces (c2 :: rest)
      else c1 :: collapseSpaces (c2 :: rest) := rfl

theorem cnl_cons3 (c1 c2 c3 : Char) (rest : Str) :
    collapseNewlines (c1 :: c2 :: c3 :: rest) =
      if c1 = '\n' ∧ c2 = '\n' ∧ c3 = '\n' then
        collapseNewlines (c2 :: c3 :: rest)
      else c1 :: collapseNewlines (c2 :: c3 :: rest) := rfl

/-- `collapseSpaces` keeps a non-space head in place. -/
theorem csp_cons_ne (c : Char) (l : Str) (hc : c ≠ ' ') :
    collapseSpaces (c :: l) = c :: collapseSpaces l := by
  cases l with
  | nil => rfl
  | cons d t =>
    rw [csp_cons_cons, if_neg (fun h => hc h.1)]

/-- `collapseNewlines` keeps the first two characters in place. -/
theorem cnl_cons2 : ∀ (l : Str) (a b : Char),
    ∃ m, collapseNewlines (a :: b :: l) = a :: b :: m := by
  intro l
  induction l with
  | nil => intro a b; exact ⟨[], rfl⟩
  | cons c rest ih =>
    intro a b
    by_cases h : a = '\n' ∧ b = '\n' ∧ c = '\n'
    · obtain ⟨m, hm⟩ := ih b c
      refine ⟨m, ?_⟩
      rw [cnl_cons3, if_pos h, hm, h.1, h.2.1, h.2.2]
    · obtain ⟨m, hm⟩ := ih b c
      refine ⟨c :: m, ?_⟩
      rw [cnl_cons3, if_neg h, hm]

/-- Replacing tabs is the identity on tab-free text. -/
theorem replaceTabs_eq_self (l : Str) (h : ∀ c ∈ l, c ≠ '\t') :
    replaceTabs l = l := by
  unfold replaceTabs
  induction l with
  | nil => rfl
  | cons c t ih =>
    rw [List.map_cons, if_neg (h c (by simp)), ih (fun d hd => h d (by simp [hd]))]

/-- No character of `replaceTabs l` is a tab. -/
theorem mem_replaceTabs_ne_tab (l : Str) (c : Char) (hc : c ∈ replaceTabs l) :
    c ≠ '\t' := by
  unfold replaceTabs at hc
  obtain ⟨a, _, ha⟩ := List.mem_map.mp hc
  by_cases h : a = '\t'
  · rw [if_pos h] at ha
    rw [← ha]
    decide
  · rw [if_neg h] at ha
    rw [← ha]
    exact h

theorem csp_sublist : ∀ l : Str, List.Sublist (collapseSpaces l) l
  | [] => List.Sublist.refl []
  | [c] => List.Sublist.refl [c]
  | c1 :: c2 :: rest => by
    rw [csp_cons_cons]
    by_cases h : c1 = ' ' ∧ c2 = ' '
    · rw [if_pos h]
      exact (csp_sublist (c2 :: rest)).cons c1
    · rw [if_neg h]
      exact (csp_sublist (c2 :: rest)).cons₂ c1

theorem cnl_sublist : ∀ l : Str, List.Sublist (collapseNewlines l) l
  | [] => List.Sublist.refl []
  | [c] => List.Sublist.refl [c]
  | [c1, c2] => List.Sublist.refl [c1, c2]
  | c1 :: c2 :: c3 :: rest => by
    rw [cnl_cons3]
    by_cases h : c1 = '\n' ∧ c2 = '\n' ∧ c3 = '\n'
    · rw [if_pos h]
      exact (cnl_sublist (c2 :: c3 :: rest)).cons c1
    · rw [if_neg h]
      exact (cnl_sublist (c2 :: c3 :: rest)).cons₂ c1

/-- The stripped string is a contiguous infix of the original. -/
theorem stripChars_contiguous (l : Str) : stripChars l <:+: l := by
  have hA : l.dropWhile isPyWS <:+ l := List.dropWhile_suffix _
  have hB : (l.dropWhile isPyWS).reverse.dropWhile isPyWS <:+
      (l.dropWhile isPyWS).reverse := List.dropWhile_suffix _
  have hpre : stripChars l <+: l.dropWhile isPyWS := by
    unfold stripChars
    have := List.reverse_prefix.mpr hB
    rwa [List.reverse_reverse] at this
  exact (hpre.isInfix).trans hA.isInfix

/-- `collapseSpaces` leaves no two adjacent spaces. -/
theorem csp_noDS : ∀ l : Str, ¬ ([' ', ' '] <:+: collapseSpaces l)
  | [] => by
    intro h
    have := h.length_le
    rw [show collapseSpaces [] = [] from rfl] at this
    simp at this
  | [c] => by
    intro h
    have := h.length_le
    rw [show collapseSpaces [c] = [c] from rfl] at this
    simp at this
  | c1 :: c2 :: rest => by
    intro h
    by_cases hb : c1 = ' ' ∧ c2 = ' '
    · rw [csp_cons_cons, if_pos hb] at h
      exact csp_noDS (c2 :: rest) h
    · rw [csp_cons_cons, if_neg hb] at h
      rcases List.infix_cons_iff.mp h with hpre | hinf
      · rw [List.cons_prefix_cons] at hpre
        obtain ⟨hc1, hpre2⟩ := hpre
        have hc2 : c2 ≠ ' ' := fun h2 => hb ⟨hc1.symm, h2⟩
        rw [csp_cons_ne c2 rest hc2, List.cons_prefix_cons] at hpre2
        exact hc2 hpre2.1.symm
      · exact csp_noDS (c2 :: rest) hinf

/-- `collapseSpaces` is the identity on text with no two adjacent
spaces. -/
theorem csp_eq_self : ∀ l : Str, ¬ ([' ', ' '] <:+: l) → collapseSpaces l = l
  | [] => fun _ => rfl
  | [_] => fun _ => rfl
  | c1 :: c2 :: rest => fun h => by
    have hb : ¬(c1 = ' ' ∧ c2 = ' ') := by
      intro hcon
      apply h
      apply List.IsPrefix.isInfix
      rw [hcon.1, hcon.2]
      exact ⟨rest, rfl⟩
    rw [csp_cons_cons, if_neg hb, csp_eq_self (c2 :: rest)
      (fun h2 => h (h2.trans (List.suffix_cons c1 (c2 :: rest)).isInfix))]

/-- `collapseNewlines` does not create adjacent spaces. -/
theorem cnl_noDS : ∀ l : Str, ¬ ([' ', ' '] <:+: l) →
    ¬ ([' ', ' '] <:+: collapseNewlines l)
  | [] => fun h => h
  | [_] => fun h => h
  | [_, _] => fun h => h
  | c1 :: c2 :: c3 :: rest => fun h => by
    by_cases hb : c1 = '\n' ∧ c2 = '\n' ∧ c3 = '\n'
    · rw [cnl_cons3, if_pos hb]
      exact cnl_noDS (c2 :: c3 :: rest)
        (fun h2 => h (h2.trans (List.suffix_cons c1 (c2 :: c3 :: rest)).isInfix))
    · rw [cnl_cons3, if_neg hb]
      intro hcon
      rcases List.infix_cons_iff.mp hcon with hpre | hinf
      · rw [List.cons_prefix_cons] at hpre
        obtain ⟨hc1, hpre2⟩ := hpre
        obtain ⟨m, hm⟩ := cnl_cons2 rest c2 c3
        rw [hm, List.cons_prefix_cons] at hpre2
        apply h
        apply List.IsPrefix.isInfix
        rw [← hc1, ← hpre2.1]
        exact ⟨c3 :: rest, rfl⟩
      · exact cnl_noDS (c2 :: c3 :: rest)
          (fun h2 => h (h2.trans (List.suffix_cons c1 (c2 :: c3 :: rest)).isInfix))
          hinf

/-- `collapseNewlines` leaves no three adjacent newlines. -/
theorem cnl_noTrip : ∀ l : Str, ¬ (['\n', '\n', '\n'] <:+: collapseNewlines l)
  | [] => by
    intro h
    have := h.length_le
    rw [show collapseNewlines [] = [] from rfl] at this
    simp at this
  | [c] => by
    intro h
    have := h.length_le
    rw [show collapseNewlines [c] = [c] from rfl] at this
    simp at this
  | [c1, c2] => by
    intro h
    have := h.length_le
    rw [show collapseNewlines [c1, c2] = [c1, c2] from rfl] at this
    simp at this
  | c1 :: c2 :: c3 :: rest => by
    intro h
    by_cases hb : c1 = '\n' ∧ c2 = '\n' ∧ c3 = '\n'
    · rw [cnl_cons3, if_pos hb] at h
      exact cnl_noTrip (c2 :: c3 :: rest) h
    · rw [cnl_cons3, if_neg hb] at h
      obtain ⟨m, hm⟩ := cnl_cons2 rest c2 c3
      rw [hm] at h
      rcases List.infix_cons_iff.mp h with hpre | hinf
      · rw [List.cons_prefix_cons] at hpre
        obtain ⟨hc1, hpre2⟩ := hpre
        rw [List.cons_prefix_cons] at hpre2
        obtain ⟨hc2, hpre3⟩ := hpre2
        rw [List.cons_prefix_cons] at hpre3
        exact hb ⟨hc1.symm, hc2.symm, hpre3.1.symm⟩
      · rw [← hm] at hinf
        exact cnl_noTrip (c2 :: c3 :: rest) hinf

/-- `collapseNewlines` is the identity on text with no three adjacent
newlines. -/
theorem cnl_eq_self : ∀ l : Str, ¬ (['\n', '\n', '\n'] <:+: l) →
    collapseNewlines l = l
  | [] => fun _ => rfl
  | [_] => fun _ => rfl
  | [_, _] => fun _ => rfl
  | c1 :: c2 :: c3 :: rest => fun h => by
    have hb : ¬(c1 = '\n' ∧ c2 = '\n' ∧ c3 = '\n') := by
      intro hcon
      apply h
      apply List.IsPrefix.isInfix
      rw [hcon.1, hcon.2.1, hcon.2.2]
      exact ⟨rest, rfl⟩
    rw [cnl_cons3, if_neg hb, cnl_eq_self (c2 :: c3 :: rest)
      (fun h2 => h (h2.trans (List.suffix_cons c1 (c2 :: c3 :: rest)).isInfix))]

/-- Claim C6: `normalize_whitespace` is idempotent — normalizing
already-normalized text is a no-op. -/
theorem normalize_whitespace_idem :
    ∀ t : Str, normalize_whitespace (normalize_whitespace t) =
      normalize_whitespace t := by
  intro t
  have hsub : List.Sublist (normalize_whitespace t) (replaceTabs t) :=
    ((stripChars_contiguous _).sublist).trans
      ((cnl_sublist _).trans (csp_sublist _))
  have hnotab : ∀ c ∈ normalize_whitespace t, c ≠ '\t' :=
    fun c hc => mem_replaceTabs_ne_tab t c (hsub.subset hc)
  have h_rt : replaceTabs (normalize_whitespace t) = normalize_whitespace t :=
    replaceTabs_eq_self _ hnotab
  have h_noDS : ¬ ([' ', ' '] <:+: normalize_whitespace t) := by
    intro h
    exact cnl_noDS (collapseSpaces (replaceTabs t)) (csp_noDS _)
      (h.trans (stripChars_contiguous _))
  have h_csp : collapseSpaces (normalize_whitespace t) = normalize_whitespace t :=
    csp_eq_self _ h_noDS
  have h_noTrip : ¬ (['\n', '\n', '\n'] <:+: normalize_whitespace t) := by
    intro h
    exact cnl_noTrip (collapseSpaces (replaceTabs t))
      (h.trans (stripChars_contiguous _))
  have h_cnl : collapseNewlines (normalize_whitespace t) = normalize_whitespace t :=
    cnl_eq_self _ h_noTrip
  show stripChars (collapseNewlines (collapseSpaces (replaceTabs
    (normalize_whitespace t)))) = normalize_whitespace t
  rw [h_rt, h_csp, h_cnl]
  exact stripChars_idem _

/-- Witness for C3 at concrete inputs: a one-character page and the empty
page. -/
theorem chunk_page_text_refines_pipeline_witness :
    chunk_page_text ['a'] ⟨1500, 400, 1⟩ =
      build_chunks_from_segments (split_into_segments ['a']) ⟨1500, 400, 1⟩ ∧
    chunk_page_text [] ⟨1500, 400, 1⟩ = [] :=
  ⟨(chunk_page_text_refines_pipeline ['a'] ⟨1500, 400, 1⟩).1,
   (chunk_page_text_refines_pipeline [] ⟨1500, 400, 1⟩).2.2⟩
